import Mathlib

/-!
Formalisation of the seeded region-growing segmentation core of this
repository (`Region.hpp`, `Seed.hpp`) and of the histogram helpers in
`tp.cpp`.

The file `Region.hpp` only declares the `Region` class: the member
function bodies are not among the sources, only their signatures,
default arguments and the field list are.  Every function whose body
is missing is therefore modelled from the specification; each such
definition says so in its doc comment.  `Seed.hpp` (inline bodies) and
`tp.cpp` are embedded directly from the code.

Machine-level conventions of the embedding:
- `cv::Point` holds `int` coordinates: points are pairs of integers.
- Color samples and the `double`/`float` scalars of `tp.cpp` are
  modelled over exact rationals; the embedded code only assigns,
  adds, multiplies by small constants and compares these values in
  ranges where `double` arithmetic is exact for the properties at
  stake, and the two IEEE constants used by `minMaxHist` are exact
  rationals.
- The shared ownership table `int ** tabInfo` is modelled as a value
  of type `Table` threaded explicitly through the functions that
  mutate it.
-/

/-- Pixel coordinate: an integer (row, col) pair, as `cv::Point` holds ints. -/
abbrev Point : Type := ℤ × ℤ

/-- Color triple (three channels). -/
abbrev Color : Type := ℚ × ℚ × ℚ

/-- Shared pixel ownership table (`int ** tabInfo`): a region id per pixel, or
`none` for an unassigned pixel. -/
abbrev Table : Type := Point → Option ℤ

/-- Read-only image (`cv::Mat`): extent plus a pixel sampling function. -/
structure Image where
  rows : ℤ
  cols : ℤ
  pix : Point → Color

/-- State of one `Region` object, with the field list of `Region.hpp`:
`id`, `size_x`/`size_y` (image extent), `color` (mean color),
`color_seuil_inf`/`color_seuil_sup` (acceptance window bounds),
`outline` (FIFO frontier queue of pending points), `border` (accepted
point set), `colors` (one sampled color per accepted pixel),
`threshold`, `coefSD`, `isIncrease`, `seuilMax`, `coefMax`.  The
shared `tabInfo` pointer is passed separately as a `Table` value. -/
structure Region where
  id : ℤ
  size_x : ℤ
  size_y : ℤ
  color : Color
  color_seuil_inf : Color
  color_seuil_sup : Color
  outline : List Point
  border : List Point
  colors : List Color
  threshold : ℤ
  coefSD : ℚ
  isIncrease : Bool
  seuilMax : ℤ
  coefMax : ℚ
deriving DecidableEq

/-- Modelled from the spec: `Region::verifyPoint` — "true iff p is within
image bounds and unassigned in the ownership table"; the body is not in
the sources.  Returns a boolean on every input, never an error. -/
def Region.verifyPoint (r : Region) (t : Table) (p : Point) : Bool :=
  decide (0 ≤ p.1) && decide (p.1 < r.size_x) &&
  decide (0 ≤ p.2) && decide (p.2 < r.size_y) &&
  (t p).isNone

/-- Componentwise containment of a color in a per-channel window. -/
def inWindow (lo hi c : Color) : Bool :=
  decide (lo.1 ≤ c.1) && decide (c.1 ≤ hi.1) &&
  decide (lo.2.1 ≤ c.2.1) && decide (c.2.1 ≤ hi.2.1) &&
  decide (lo.2.2 ≤ c.2.2) && decide (c.2.2 ≤ hi.2.2)

/-- Modelled from the spec: `Region::verifyColor` — the admission test,
"a candidate color is admitted iff each channel lies within
[windowLow[c], windowHigh[c]]"; the body is not in the sources. -/
def Region.verifyColor (r : Region) (c : Color) : Bool :=
  inWindow r.color_seuil_inf r.color_seuil_sup c

/-- Modelled from the spec: `Region::verifyFusion2` — "true iff color lies
within this region's current window"; the body is not in the sources. -/
def Region.verifyFusion2 (r : Region) (c : Color) : Bool :=
  r.verifyColor c

/-- Modelled from the spec: `Region::verifyFusion` — "true iff
`other.meanColor` lies within this region's window AND this region's
`meanColor` lies within `other`'s window"; the body is not in the
sources. -/
def Region.verifyFusion (r other : Region) : Bool :=
  r.verifyColor other.color && other.verifyColor r.color

/-- Seed.hpp, `Seed::Seed(cv::Mat)` (body in the sources):
`point = cv::Point(rand() % (img.rows - 1), rand() % (img.cols - 1));`
with the two `rand()` results passed in explicitly (`rand()` returns a
nonnegative int).  `Seed::getPoint` returns this stored point. -/
def seedPoint (rows cols r1 r2 : ℤ) : Point :=
  (r1 % (rows - 1), r2 % (cols - 1))

/-- Smallest positive normal double, the exact value of
`std::numeric_limits<double>::min()`. -/
def dblMin : ℚ := 1 / 2 ^ 1022

/-- Largest finite double, the exact value of
`std::numeric_limits<double>::max()`. -/
def dblMax : ℚ := (2 ^ 53 - 1) * 2 ^ 971

/-- tp.cpp, `minMaxHist` (body in the sources): starts from
`minVal = DBL_MAX`, `maxVal = DBL_MIN` and scans the bins once,
lowering `minVal` on `binValue < minVal` and raising `maxVal` on
`binValue > maxVal`.  The histogram row is the list of its bin
values. -/
def minMaxHist (hist : List ℚ) : ℚ × ℚ :=
  hist.foldl
    (fun mv b => (if b < mv.1 then b else mv.1, if b > mv.2 then b else mv.2))
    (dblMax, dblMin)

/-- Componentwise mean of a list of rationals (0 on the empty list). -/
def meanList (l : List ℚ) : ℚ :=
  l.sum / (l.length : ℚ)

/-- Modelled from the spec: `Region::averageColor` — "recompute `meanColor`
from `colors`" as the componentwise mean of the sampled colors; the body
is not in the sources. -/
def Region.averageColor (r : Region) : Region :=
  { r with color := (meanList (r.colors.map (fun c => c.1)),
                     meanList (r.colors.map (fun c => c.2.1)),
                     meanList (r.colors.map (fun c => c.2.2))) }

/-- Current half-width of the acceptance window, from the region's
adaptive threshold state. -/
def Region.halfWidth (r : Region) : ℚ :=
  (r.threshold : ℚ) * r.coefSD

/-- Modelled from the spec: `Region::averageColorSeuil` — "recompute
`windowLow`/`windowHigh`" from `meanColor` and the adaptive half-width;
the body is not in the sources. -/
def Region.averageColorSeuil (r : Region) : Region :=
  { r with
    color_seuil_inf := (r.color.1 - r.halfWidth,
                        r.color.2.1 - r.halfWidth,
                        r.color.2.2 - r.halfWidth),
    color_seuil_sup := (r.color.1 + r.halfWidth,
                        r.color.2.1 + r.halfWidth,
                        r.color.2.2 + r.halfWidth) }

/-- Saturation cap of the half-width: `thresholdCap * growthCoefCap`
(`seuilMax * coefMax` in the header's field names). -/
def Region.capQ (r : Region) : ℚ :=
  (r.seuilMax : ℚ) * r.coefMax

/-- Modelled from the spec: `Region::increaseThreshold` — "widens the
window by one step when growth has stalled", the half-width "is capped
so it never exceeds `thresholdCap * growthCoefCap`", and `isIncrease`
"becomes permanently false once the cap is reached"; once false, a
further call has no effect.  The body is not in the sources. -/
def Region.increaseThreshold (r : Region) : Region :=
  if r.isIncrease then
    if ((r.threshold + 1 : ℤ) : ℚ) * r.coefSD ≤ r.capQ then
      { r with threshold := r.threshold + 1 }
    else
      { r with isIncrease := false }
  else r

/-- Modelled from the spec: `Region::addPoint` — "appends p to `accepted`,
samples its color, and claims p in the ownership table"; the body is not
in the sources.  Returns the updated region and table. -/
def Region.addPoint (r : Region) (t : Table) (img : Image) (p : Point) :
    Region × Table :=
  ({ r with border := r.border ++ [p], colors := r.colors ++ [img.pix p] },
   fun q => if q = p then some r.id else t q)

/-- Modelled from the spec: the treatment of one neighbor inside
`Region::grow` — a neighbor "that is in-bounds and currently unassigned
in the ownership table" (`verifyPoint`) is tested for admission
(`verifyColor`); if admitted it is recorded as accepted, its color is
sampled, it is claimed in the ownership table (`addPoint`) and enqueued
into the frontier for the next call. -/
def admitStep (img : Image) (rt : Region × Table) (p : Point) :
    Region × Table :=
  if rt.1.verifyPoint rt.2 p && rt.1.verifyColor (img.pix p) then
    let rt1 := rt.1.addPoint rt.2 img p
    ({ rt1.1 with outline := rt1.1.outline ++ [p] }, rt1.2)
  else rt

/-- Up to 8 grid neighbors of a point, as in the spec's growth loop. -/
def neighbors (p : Point) : List Point :=
  [(p.1 - 1, p.2 - 1), (p.1 - 1, p.2), (p.1 - 1, p.2 + 1),
   (p.1, p.2 - 1), (p.1, p.2 + 1),
   (p.1 + 1, p.2 - 1), (p.1 + 1, p.2), (p.1 + 1, p.2 + 1)]

/-- Modelled from the spec: the handling of one drained frontier
coordinate inside `Region::grow`: examine its up to 8 grid neighbors
and run the admission step on each. -/
def ringStep (img : Image) (rt : Region × Table) (p : Point) :
    Region × Table :=
  (neighbors p).foldl (admitStep img) rt

/-- Modelled from the spec: `Region::grow` — "drains exactly the frontier
entries present at call-entry (one ring per call)" and processes each
drained coordinate's neighbors; admitted pixels are enqueued into the
frontier for the next call.  The body is not in the sources. -/
def Region.grow (r : Region) (t : Table) (img : Image) : Region × Table :=
  r.outline.foldl (ringStep img) ({ r with outline := [] }, t)

/-- Modelled from the spec: the `Region` value constructor — "created from
a single seed pixel (admitted directly, sampled once)": the seed is
accepted, its color sampled as the initial mean, the seed is claimed in
the ownership table and placed on the frontier, `isIncrease` starts
true, and the window is computed from the seed color and the initial
half-width.  The configuration parameters are those of the declaration
in `Region.hpp`.  The body is not in the sources. -/
def mkRegion (id : ℤ) (p : Point) (t : Table) (img : Image)
    (threshold : ℤ) (coefSD : ℚ) (seuilMax : ℤ) (coefMax : ℚ) :
    Region × Table :=
  let r : Region :=
    { id := id
      size_x := img.rows
      size_y := img.cols
      color := img.pix p
      color_seuil_inf := img.pix p
      color_seuil_sup := img.pix p
      outline := [p]
      border := [p]
      colors := [img.pix p]
      threshold := threshold
      coefSD := coefSD
      isIncrease := true
      seuilMax := seuilMax
      coefMax := coefMax }
  (r.averageColorSeuil, fun q => if q = p then some id else t q)

/-- Construction with the declaration's default arguments
`int _threshold = 5, float coefSD = 1., int seuilMax = 10,
float _coefSDMax = 1.5` (Region.hpp line 33), used when the caller
does not override the configuration. -/
def mkRegionDefault (id : ℤ) (p : Point) (t : Table) (img : Image) :
    Region × Table :=
  mkRegion id p t img 5 1 10 (3 / 2)

/-- Modelled from the spec: `Region::operator+=` — "absorbs another
region: appends its colors, accepted set, and frontier into this
region, rewrites every absorbed pixel's ownership-table entry to this
region's id, recomputes `meanColor`/window"; the body is not in the
sources. -/
def regionMerge (a b : Region) (t : Table) : Region × Table :=
  let a1 : Region :=
    { a with colors := a.colors ++ b.colors,
             border := a.border ++ b.border,
             outline := a.outline ++ b.outline }
  (a1.averageColor.averageColorSeuil,
   fun q => if q ∈ b.border then some a.id else t q)

/-- Helper: `verifyPoint` unfolded to its propositional content. -/
theorem verifyPoint_eq (r : Region) (t : Table) (p : Point) :
    r.verifyPoint t p = true ↔
      (0 ≤ p.1 ∧ p.1 < r.size_x ∧ 0 ≤ p.2 ∧ p.2 < r.size_y ∧ t p = none) := by
  simp [Region.verifyPoint, Option.isNone_iff_eq_none, and_assoc]

/-- Concrete 4×4 uniform-gray image used for witnesses. -/
def imgU : Image :=
  { rows := 4, cols := 4, pix := fun _ => (7, 7, 7) }

/-- Concrete empty ownership table used for witnesses. -/
def tab0 : Table := fun _ => none

/-- Concrete region built with the default configuration. -/
def rDef : Region := (mkRegionDefault 1 (0, 0) tab0 imgU).1

/-- The default-configured region after eleven widening calls. -/
def rSat : Region := Region.increaseThreshold^[11] rDef

/-- The default-configured region with its frontier drained. -/
def rE : Region := { rDef with outline := [] }

/-- C7: for every point p, `verifyPoint(p)` returns true if and only if p
lies within the image bounds and the ownership table entry for p is
unassigned; out-of-bounds or already-owned coordinates are rejected by
returning false (the embedded function is total, so no error is raised
on any path). -/
theorem C7_verifyPoint_iff (r : Region) (t : Table) (p : Point) :
    r.verifyPoint t p = true ↔
      ((0 ≤ p.1 ∧ p.1 < r.size_x ∧ 0 ≤ p.2 ∧ p.2 < r.size_y) ∧ t p = none) := by
  simp [Region.verifyPoint, Option.isNone_iff_eq_none, and_assoc]

/-- C6: `verifyFusion` is symmetric — `verifyFusion(A,B)` returns the same
boolean as `verifyFusion(B,A)`, because it holds iff B's mean color lies
within A's window and A's mean color lies within B's window. -/
theorem C6_verifyFusion_symm (a b : Region) :
    a.verifyFusion b = b.verifyFusion a := by
  simp [Region.verifyFusion, Bool.and_comm]

/-- C8: the Region constructor's configuration parameters default to
baseThreshold = 5, growthCoef = 1.0, thresholdCap = 10 and
growthCoefCap = 1.5 when the caller does not override them (the default
arguments of the declaration in Region.hpp). -/
theorem C8_constructor_defaults (i : ℤ) (p : Point) (t : Table) (img : Image) :
    (mkRegionDefault i p t img).1.threshold = 5 ∧
    (mkRegionDefault i p t img).1.coefSD = 1 ∧
    (mkRegionDefault i p t img).1.seuilMax = 10 ∧
    (mkRegionDefault i p t img).1.coefMax = 3 / 2 := by
  simp [mkRegionDefault, mkRegion, Region.averageColorSeuil]

/-- C10: for every image with at least two rows and columns and every pair
of values of the random generator, the seed point satisfies
0 ≤ x ≤ rows - 2 and 0 ≤ y ≤ cols - 2: x is drawn modulo (rows - 1) and
y modulo (cols - 1), so the bound on x comes from the row count. -/
theorem C10_seed_bounds (rows cols r1 r2 : ℤ)
    (hr : 2 ≤ rows) (hc : 2 ≤ cols) (h1 : 0 ≤ r1) (h2 : 0 ≤ r2) :
    0 ≤ (seedPoint rows cols r1 r2).1 ∧
    (seedPoint rows cols r1 r2).1 ≤ rows - 2 ∧
    0 ≤ (seedPoint rows cols r1 r2).2 ∧
    (seedPoint rows cols r1 r2).2 ≤ cols - 2 := by
  have ha := Int.emod_nonneg r1 (by omega : rows - 1 ≠ 0)
  have hb := Int.emod_nonneg r2 (by omega : cols - 1 ≠ 0)
  have hc1 := Int.emod_lt_of_pos r1 (by omega : 0 < rows - 1)
  have hc2 := Int.emod_lt_of_pos r2 (by omega : 0 < cols - 1)
  simp only [seedPoint]
  omega

/-- Witness for C10 at rows = 4, cols = 3, rand values 7 and 5. -/
theorem C10_seed_bounds_witness :
    (2 ≤ (4 : ℤ) ∧ 2 ≤ (3 : ℤ) ∧ 0 ≤ (7 : ℤ) ∧ 0 ≤ (5 : ℤ)) ∧
    (0 ≤ (seedPoint 4 3 7 5).1 ∧ (seedPoint 4 3 7 5).1 ≤ 4 - 2 ∧
     0 ≤ (seedPoint 4 3 7 5).2 ∧ (seedPoint 4 3 7 5).2 ≤ 3 - 2) :=
  ⟨by decide, C10_seed_bounds 4 3 7 5 (by decide) (by decide) (by decide) (by decide)⟩

/-- C2: for every region with a nonnegative window half-width (as every
region configured with the documented defaults has), after recomputing
the mean (`averageColor`) and then the window (`averageColorSeuil`), the
per-channel bounds satisfy windowLow[c] ≤ meanColor[c] ≤ windowHigh[c]
for every channel c. -/
theorem C2_window_contains_mean (r : Region) (h : 0 ≤ r.halfWidth) :
    (r.averageColor.averageColorSeuil.color_seuil_inf.1
        ≤ r.averageColor.averageColorSeuil.color.1 ∧
     r.averageColor.averageColorSeuil.color.1
        ≤ r.averageColor.averageColorSeuil.color_seuil_sup.1) ∧
    (r.averageColor.averageColorSeuil.color_seuil_inf.2.1
        ≤ r.averageColor.averageColorSeuil.color.2.1 ∧
     r.averageColor.averageColorSeuil.color.2.1
        ≤ r.averageColor.averageColorSeuil.color_seuil_sup.2.1) ∧
    (r.averageColor.averageColorSeuil.color_seuil_inf.2.2
        ≤ r.averageColor.averageColorSeuil.color.2.2 ∧
     r.averageColor.averageColorSeuil.color.2.2
        ≤ r.averageColor.averageColorSeuil.color_seuil_sup.2.2) := by
  simp only [Region.averageColor, Region.averageColorSeuil, Region.halfWidth] at h ⊢
  refine ⟨⟨?_, ?_⟩, ⟨?_, ?_⟩, ⟨?_, ?_⟩⟩ <;> linarith

/-- Witness for C2 at the default-configured concrete region. -/
theorem C2_window_contains_mean_witness :
    0 ≤ rDef.halfWidth ∧
    ((rDef.averageColor.averageColorSeuil.color_seuil_inf.1
        ≤ rDef.averageColor.averageColorSeuil.color.1 ∧
      rDef.averageColor.averageColorSeuil.color.1
        ≤ rDef.averageColor.averageColorSeuil.color_seuil_sup.1) ∧
     (rDef.averageColor.averageColorSeuil.color_seuil_inf.2.1
        ≤ rDef.averageColor.averageColorSeuil.color.2.1 ∧
      rDef.averageColor.averageColorSeuil.color.2.1
        ≤ rDef.averageColor.averageColorSeuil.color_seuil_sup.2.1) ∧
     (rDef.averageColor.averageColorSeuil.color_seuil_inf.2.2
        ≤ rDef.averageColor.averageColorSeuil.color.2.2 ∧
      rDef.averageColor.averageColorSeuil.color.2.2
        ≤ rDef.averageColor.averageColorSeuil.color_seuil_sup.2.2)) := by
  have hw : 0 ≤ rDef.halfWidth := by
    norm_num [rDef, mkRegionDefault, mkRegion, Region.averageColorSeuil,
      Region.halfWidth]
  exact ⟨hw, C2_window_contains_mean rDef hw⟩

/-- C4: each region is a two-state machine on its widening flag —
`isIncrease` starts true at construction; while the flag is false a
further `increaseThreshold()` call changes no state; the flag never
goes back from false to true; the half-width never exceeds
thresholdCap * growthCoefCap; and on the concrete default configuration
eleven widening calls saturate the region, making the flag false. -/
theorem C4_two_state :
    (∀ (i : ℤ) (p : Point) (t : Table) (img : Image) (thr : ℤ) (c : ℚ)
        (sm : ℤ) (cm : ℚ), (mkRegion i p t img thr c sm cm).1.isIncrease = true) ∧
    (∀ r : Region, r.isIncrease = false → r.increaseThreshold = r) ∧
    (∀ r : Region, r.increaseThreshold.isIncrease = true → r.isIncrease = true) ∧
    (∀ r : Region, r.halfWidth ≤ r.capQ →
        r.increaseThreshold.halfWidth ≤ r.increaseThreshold.capQ) ∧
    rSat.isIncrease = false := by
  refine ⟨?_, ?_, ?_, ?_, ?_⟩
  · intro i p t img thr c sm cm
    simp [mkRegion, Region.averageColorSeuil]
  · intro r h
    simp [Region.increaseThreshold, h]
  · intro r h
    by_contra hf
    simp only [Bool.not_eq_true] at hf
    simp [Region.increaseThreshold, hf] at h
  · intro r h
    unfold Region.increaseThreshold
    split_ifs with h1 h2
    · simpa [Region.halfWidth, Region.capQ] using h2
    · simpa [Region.halfWidth, Region.capQ] using h
    · exact h
  · norm_num [rSat, rDef, mkRegionDefault, mkRegion, Region.averageColorSeuil,
      Function.iterate_succ_apply, Region.increaseThreshold, Region.capQ]

/-- Witness for C4: the saturated concrete region has its flag false, and
a further `increaseThreshold()` call changes no state. -/
theorem C4_two_state_witness :
    rSat.isIncrease = false ∧ rSat.increaseThreshold = rSat := by
  have hf : rSat.isIncrease = false := C4_two_state.2.2.2.2
  exact ⟨hf, C4_two_state.2.1 rSat hf⟩

/-- C5: calling `grow()` on a region whose frontier queue is empty is a
no-op — it leaves the region's entire state and the shared ownership
table unchanged (and, the embedding being total, raises no error). -/
theorem C5_grow_empty_noop (r : Region) (t : Table) (img : Image)
    (h : r.outline = []) : r.grow t img = (r, t) := by
  have he : { r with outline := ([] : List Point) } = r := by
    cases r
    simp_all
  simp [Region.grow, h, he]

/-- Witness for C5 at a concrete frontier-drained region. -/
theorem C5_grow_empty_noop_witness :
    rE.outline = [] ∧ rE.grow tab0 imgU = (rE, tab0) :=
  ⟨rfl, C5_grow_empty_noop rE tab0 imgU rfl⟩

/-- Helper: the single fold of `minMaxHist` is the pair of a min-fold and
a max-fold. -/
lemma minMaxHist_pair (l : List ℚ) : ∀ a b : ℚ,
    l.foldl (fun mv c =>
        (if c < mv.1 then c else mv.1, if c > mv.2 then c else mv.2)) (a, b)
      = (l.foldl min a, l.foldl max b) := by
  induction l with
  | nil => intro a b; rfl
  | cons x xs ih =>
    intro a b
    have h1 : (if x < a then x else a) = min a x := by
      split_ifs with h
      · exact (min_eq_right h.le).symm
      · exact (min_eq_left (not_lt.mp h)).symm
    have h2 : (if x > b then x else b) = max b x := by
      split_ifs with h
      · exact (max_eq_right h.le).symm
      · exact (max_eq_left (not_lt.mp h)).symm
    simp only [List.foldl_cons, h1, h2, ih]

/-- Helper: a min-fold is bounded by its initial accumulator. -/
lemma foldl_min_le_init (l : List ℚ) : ∀ a : ℚ, l.foldl min a ≤ a := by
  induction l with
  | nil => intro a; simp
  | cons x xs ih =>
    intro a
    exact le_trans (ih (min a x)) (min_le_left a x)

/-- Helper: a min-fold is bounded by every list element. -/
lemma foldl_min_le_mem (l : List ℚ) : ∀ a b : ℚ, b ∈ l → l.foldl min a ≤ b := by
  induction l with
  | nil => intro a b hb; cases hb
  | cons x xs ih =>
    intro a b hb
    rcases List.mem_cons.mp hb with h | h
    · subst h
      exact le_trans (foldl_min_le_init xs (min a b)) (min_le_right a b)
    · exact ih (min a x) b h

/-- Helper: a min-fold returns a list element or the initial accumulator. -/
lemma foldl_min_mem_or (l : List ℚ) :
    ∀ a : ℚ, l.foldl min a ∈ l ∨ l.foldl min a = a := by
  induction l with
  | nil => intro a; right; rfl
  | cons x xs ih =>
    intro a
    rcases ih (min a x) with h | h
    · left
      exact List.mem_cons_of_mem x h
    · rw [List.foldl_cons, h]
      rcases le_total a x with h2 | h2
      · right
        exact min_eq_left h2
      · left
        rw [min_eq_right h2]
        exact List.mem_cons_self x xs

/-- Helper: a max-fold dominates its initial accumulator. -/
lemma le_foldl_max_init (l : List ℚ) : ∀ a : ℚ, a ≤ l.foldl max a := by
  induction l with
  | nil => intro a; simp
  | cons x xs ih =>
    intro a
    exact le_trans (le_max_left a x) (ih (max a x))

/-- Helper: a max-fold dominates every list element. -/
lemma le_foldl_max_mem (l : List ℚ) : ∀ a b : ℚ, b ∈ l → b ≤ l.foldl max a := by
  induction l with
  | nil => intro a b hb; cases hb
  | cons x xs ih =>
    intro a b hb
    rcases List.mem_cons.mp hb with h | h
    · subst h
      exact le_trans (le_max_right a b) (le_foldl_max_init xs (max a b))
    · exact ih (max a x) b h

/-- Helper: a max-fold returns a list element or the initial accumulator. -/
lemma foldl_max_mem_or (l : List ℚ) :
    ∀ a : ℚ, l.foldl max a ∈ l ∨ l.foldl max a = a := by
  induction l with
  | nil => intro a; right; rfl
  | cons x xs ih =>
    intro a
    rcases ih (max a x) with h | h
    · left
      exact List.mem_cons_of_mem x h
    · rw [List.foldl_cons, h]
      rcases le_total x a with h2 | h2
      · right
        exact max_eq_left h2
      · left
        rw [max_eq_right h2]
        exact List.mem_cons_self x xs

/-- Helper: `DBL_MIN` is positive. -/
lemma dblMin_pos : (0 : ℚ) < dblMin := by
  unfold dblMin
  positivity

/-- C9: `minMaxHist` sets maxVal to the maximum of DBL_MIN (its initial
value, the smallest positive double) and the largest bin value — maxVal
dominates DBL_MIN and every bin and is itself a bin or DBL_MIN — and,
for a histogram that is nonempty with every bin at most DBL_MAX, sets
minVal to the smallest bin value; in particular an all-zero histogram
reports maxVal = DBL_MIN rather than 0. -/
theorem C9_minMaxHist_spec (hist : List ℚ) :
    (dblMin ≤ (minMaxHist hist).2 ∧
     (∀ b ∈ hist, b ≤ (minMaxHist hist).2) ∧
     ((minMaxHist hist).2 ∈ hist ∨ (minMaxHist hist).2 = dblMin)) ∧
    (hist ≠ [] → (∀ b ∈ hist, b ≤ dblMax) →
      ((minMaxHist hist).1 ∈ hist ∧ ∀ b ∈ hist, (minMaxHist hist).1 ≤ b)) ∧
    (∀ n : ℕ, (minMaxHist (List.replicate n 0)).2 = dblMin) := by
  have hpair : ∀ l : List ℚ, minMaxHist l = (l.foldl min dblMax, l.foldl max dblMin) := by
    intro l
    simpa [minMaxHist] using minMaxHist_pair l dblMax dblMin
  refine ⟨⟨?_, ?_, ?_⟩, ?_, ?_⟩
  · rw [hpair]
    exact le_foldl_max_init hist dblMin
  · intro b hb
    rw [hpair]
    exact le_foldl_max_mem hist dblMin b hb
  · rw [hpair]
    exact foldl_max_mem_or hist dblMin
  · intro hne hub
    rw [hpair]
    constructor
    · rcases foldl_min_mem_or hist dblMax with h | h
      · exact h
      · rcases List.exists_mem_of_ne_nil hist hne with ⟨x, hx⟩
        have hle : hist.foldl min dblMax ≤ x := foldl_min_le_mem hist dblMax x hx
        have hxe : x = dblMax := le_antisymm (hub x hx) (h ▸ hle)
        rw [h, ← hxe]
        exact hx
    · intro b hb
      exact foldl_min_le_mem hist dblMax b hb
  · intro n
    rw [hpair]
    induction n with
    | zero => rfl
    | succ k ih =>
      have hz : max dblMin (0 : ℚ) = dblMin := max_eq_left dblMin_pos.le
      simpa [List.replicate_succ, hz] using ih

/-- Witness for C9 on the concrete histogram [3, 0, 7]. -/
theorem C9_minMaxHist_spec_witness :
    (([3, 0, 7] : List ℚ) ≠ [] ∧ (∀ b ∈ ([3, 0, 7] : List ℚ), b ≤ dblMax)) ∧
    ((minMaxHist [3, 0, 7]).1 ∈ ([3, 0, 7] : List ℚ) ∧
     ∀ b ∈ ([3, 0, 7] : List ℚ), (minMaxHist [3, 0, 7]).1 ≤ b) := by
  have hne : ([3, 0, 7] : List ℚ) ≠ [] := by simp
  have hub : ∀ b ∈ ([3, 0, 7] : List ℚ), b ≤ dblMax := by
    intro b hb
    have h7 : (7 : ℚ) ≤ dblMax := by norm_num [dblMax]
    rcases List.mem_cons.mp hb with h | hb2
    · rw [h]; linarith
    rcases List.mem_cons.mp hb2 with h | hb3
    · rw [h]; linarith
    rcases List.mem_cons.mp hb3 with h | hb4
    · rw [h]; linarith
    · cases hb4
  exact ⟨⟨hne, hub⟩, (C9_minMaxHist_spec [3, 0, 7]).2.1 hne hub⟩

/-- C3: after region A absorbs region B via the merge operator, A's
accepted set has exactly the pre-merge pixels of both regions — its
size is the sum of the two pre-merge sizes, it has no duplicate
(given the exclusivity of the two pre-merge sets) and loses no pixel —
and every pixel formerly mapped to B's id in the ownership table is
afterwards mapped to A's id (B's table entries being exactly its
accepted pixels). -/
theorem C3_merge_conservation (a b : Region) (t : Table)
    (hna : a.border.Nodup) (hnb : b.border.Nodup)
    (hdisj : ∀ p ∈ a.border, p ∉ b.border)
    (hown : ∀ p : Point, t p = some b.id → p ∈ b.border) :
    (regionMerge a b t).1.border.length = a.border.length + b.border.length ∧
    (regionMerge a b t).1.border.Nodup ∧
    (∀ p : Point, p ∈ (regionMerge a b t).1.border ↔ p ∈ a.border ∨ p ∈ b.border) ∧
    (∀ p : Point, t p = some b.id → (regionMerge a b t).2 p = some a.id) := by
  have hb : (regionMerge a b t).1.border = a.border ++ b.border := by
    simp [regionMerge, Region.averageColor, Region.averageColorSeuil]
  refine ⟨?_, ?_, ?_, ?_⟩
  · rw [hb]
    exact List.length_append a.border b.border
  · rw [hb]
    exact List.Nodup.append hna hnb hdisj
  · intro p
    rw [hb]
    exact List.mem_append
  · intro p hp
    simp only [regionMerge]
    rw [if_pos (hown p hp)]

/-- Concrete region seeded at (0,1) with id 1, for witnesses. -/
def rA : Region := (mkRegionDefault 1 (0, 1) tab0 imgU).1

/-- Concrete region seeded at (2,3) with id 2, for witnesses. -/
def rB : Region := (mkRegionDefault 2 (2, 3) tab0 imgU).1

/-- Concrete ownership table owning (0,1) for id 1 and (2,3) for id 2. -/
def tAB : Table := fun p =>
  if p = (0, 1) then some 1 else if p = (2, 3) then some 2 else none

/-- Witness for C3 at the two concrete one-pixel regions. -/
theorem C3_merge_conservation_witness :
    (rA.border.Nodup ∧ rB.border.Nodup ∧
     (∀ p ∈ rA.border, p ∉ rB.border) ∧
     (∀ p : Point, tAB p = some rB.id → p ∈ rB.border)) ∧
    ((regionMerge rA rB tAB).1.border.length
        = rA.border.length + rB.border.length ∧
     (regionMerge rA rB tAB).1.border.Nodup ∧
     (∀ p : Point, p ∈ (regionMerge rA rB tAB).1.border ↔
        p ∈ rA.border ∨ p ∈ rB.border) ∧
     (∀ p : Point, tAB p = some rB.id → (regionMerge rA rB tAB).2 p = some rA.id)) := by
  have hA : rA.border = [(0, 1)] := by
    simp [rA, mkRegionDefault, mkRegion, Region.averageColorSeuil]
  have hB : rB.border = [(2, 3)] := by
    simp [rB, mkRegionDefault, mkRegion, Region.averageColorSeuil]
  have hBid : rB.id = 2 := by
    simp [rB, mkRegionDefault, mkRegion, Region.averageColorSeuil]
  have hna : rA.border.Nodup := by
    rw [hA]; simp
  have hnb : rB.border.Nodup := by
    rw [hB]; simp
  have hdisj : ∀ p ∈ rA.border, p ∉ rB.border := by
    rw [hA, hB]; simp
  have hown : ∀ p : Point, tAB p = some rB.id → p ∈ rB.border := by
    intro p hp
    rw [hBid] at hp
    rw [hB]
    by_cases h1 : p = (0, 1)
    · simp [tAB, h1] at hp
    · by_cases h2 : p = (2, 3)
      · simp [h2]
      · simp [tAB, h1, h2] at hp
  exact ⟨⟨hna, hnb, hdisj, hown⟩,
    C3_merge_conservation rA rB tAB hna hnb hdisj hown⟩

/-- Global state of a segmentation run: the shared ownership table plus
the regions grown over it. -/
structure SysState where
  table : Table
  regions : List Region

/-- Ownership invariant: every accepted pixel of every region is mapped
to that region's id in the shared ownership table. -/
def OwnInv (s : SysState) : Prop :=
  ∀ r ∈ s.regions, ∀ p : Point, p ∈ r.border → s.table p = some r.id

/-- Modelled from the spec: one scheduler step of the growth protocol —
some region performs a `grow()` ring over the shared table, or admits
one point via `addPoint` after the `verifyPoint` ownership check that
the spec requires before any admission. -/
inductive SysStep (img : Image) : SysState → SysState → Prop
  | growRing (s : SysState) (i : ℕ) (r : Region) (hr : s.regions[i]? = some r) :
      SysStep img s
        ⟨(r.grow s.table img).2, s.regions.set i (r.grow s.table img).1⟩
  | admitOne (s : SysState) (i : ℕ) (r : Region) (p : Point)
      (hr : s.regions[i]? = some r)
      (hp : r.verifyPoint s.table p = true) :
      SysStep img s
        ⟨(r.addPoint s.table img p).2, s.regions.set i (r.addPoint s.table img p).1⟩

/-- Intermediate invariant carried through the folds of `grow`: the
growing region keeps its id, owns all of its accepted pixels in the
current table, and the current table differs from the initial one only
on pixels that were unassigned and are now claimed by this region. -/
def GrowInv (rid : ℤ) (t0 : Table) (rt : Region × Table) : Prop :=
  rt.1.id = rid ∧
  (∀ p : Point, p ∈ rt.1.border → rt.2 p = some rid) ∧
  (∀ p : Point, rt.2 p = t0 p ∨ (t0 p = none ∧ rt.2 p = some rid))

/-- Helper: a property preserved by each step of a fold is preserved by
the whole fold. -/
lemma foldl_pres {α β : Type} (f : α → β → α) (P : α → Prop)
    (hstep : ∀ a b, P a → P (f a b)) :
    ∀ (l : List β) (a : α), P a → P (l.foldl f a) := by
  intro l
  induction l with
  | nil => intro a h; exact h
  | cons x xs ih =>
    intro a h
    exact ih (f a x) (hstep a x h)

/-- Helper: one admission step preserves the growth invariant. -/
lemma admitStep_growInv (img : Image) (rid : ℤ) (t0 : Table)
    (rt : Region × Table) (p : Point) (h : GrowInv rid t0 rt) :
    GrowInv rid t0 (admitStep img rt p) := by
  obtain ⟨hid, hbor, htab⟩ := h
  unfold admitStep
  by_cases hc : (rt.1.verifyPoint rt.2 p && rt.1.verifyColor (img.pix p)) = true
  · rw [if_pos hc]
    have hvp : rt.1.verifyPoint rt.2 p = true := (Bool.and_eq_true _ _).mp hc |>.1
    have hnone : rt.2 p = none := ((verifyPoint_eq rt.1 rt.2 p).mp hvp).2.2.2.2
    refine ⟨hid, ?_, ?_⟩
    · intro q hq
      simp only [Region.addPoint, List.mem_append, List.mem_singleton] at hq
      by_cases hqp : q = p
      · simp [Region.addPoint, hqp, hid]
      · rcases hq with hq | hq
        · simp only [Region.addPoint]
          rw [if_neg hqp]
          exact hbor q hq
        · exact absurd hq hqp
    · intro q
      simp only [Region.addPoint]
      by_cases hqp : q = p
      · right
        subst hqp
        rcases htab q with h1 | h1
        · rw [h1] at hnone
          exact ⟨hnone, by simp [hid]⟩
        · rw [h1.2] at hnone
          cases hnone
      · rw [if_neg hqp]
        exact htab q
  · rw [if_neg hc]
    exact ⟨hid, hbor, htab⟩

/-- Helper: handling one drained frontier coordinate preserves the
growth invariant. -/
lemma ringStep_growInv (img : Image) (rid : ℤ) (t0 : Table)
    (rt : Region × Table) (p : Point) (h : GrowInv rid t0 rt) :
    GrowInv rid t0 (ringStep img rt p) := by
  unfold ringStep
  exact foldl_pres (admitStep img) (GrowInv rid t0)
    (fun a b hb => admitStep_growInv img rid t0 a b hb) (neighbors p) rt h

/-- Helper: a full `grow()` ring preserves the growth invariant with
respect to the table at call entry. -/
lemma grow_growInv (img : Image) (r : Region) (t : Table)
    (hown : ∀ p : Point, p ∈ r.border → t p = some r.id) :
    GrowInv r.id t (r.grow t img) := by
  unfold Region.grow
  refine foldl_pres (ringStep img) (GrowInv r.id t)
    (fun a b hb => ringStep_growInv img r.id t a b hb) r.outline _ ?_
  exact ⟨rfl, hown, fun p => Or.inl rfl⟩

/-- Helper: every scheduler step preserves the ownership invariant. -/
lemma ownInv_step (img : Image) (s s2 : SysState)
    (h : OwnInv s) (hs : SysStep img s s2) : OwnInv s2 := by
  cases hs with
  | growRing i r hr =>
    have hmem : r ∈ s.regions := List.getElem?_mem hr
    have hown : ∀ p : Point, p ∈ r.border → s.table p = some r.id :=
      fun p hp => h r hmem p hp
    have ginv := grow_growInv img r s.table hown
    obtain ⟨hid, hbor, htab⟩ := ginv
    intro r2 hr2 p hp
    dsimp only at hr2 ⊢
    rcases List.mem_or_eq_of_mem_set hr2 with h2 | h2
    · have e := h r2 h2 p hp
      rcases htab p with h3 | h3
      · rw [h3]
        exact e
      · rw [h3.1] at e
        cases e
    · subst h2
      rw [hbor p hp, hid]
  | admitOne i r p hr hp =>
    have hmem : r ∈ s.regions := List.getElem?_mem hr
    have hnone : s.table p = none := ((verifyPoint_eq r s.table p).mp hp).2.2.2.2
    intro r2 hr2 q hq
    dsimp only at hr2 ⊢
    rcases List.mem_or_eq_of_mem_set hr2 with h2 | h2
    · have e := h r2 h2 q hq
      simp only [Region.addPoint]
      by_cases hqp : q = p
      · rw [hqp] at e
        rw [e] at hnone
        cases hnone
      · rw [if_neg hqp]
        exact e
    · subst h2
      simp only [Region.addPoint, List.mem_append, List.mem_singleton] at hq
      simp only [Region.addPoint]
      by_cases hqp : q = p
      · rw [if_pos hqp]
      · rw [if_neg hqp]
        rcases hq with hq | hq
        · exact h r hmem q hq
        · exact absurd hq hqp

/-- Helper: the ownership invariant holds in every state reachable by
any interleaving of scheduler steps. -/
lemma ownInv_reach (img : Image) (s s2 : SysState) (h : OwnInv s)
    (hs : Relation.ReflTransGen (SysStep img) s s2) : OwnInv s2 := by
  induction hs with
  | refl => exact h
  | tail _ hstep ih => exact ownInv_step img _ _ ih hstep

/-- C1: for any two distinct regions (distinct ids, as the spec requires
region ids to be unique) grown over the same shared ownership table, in
every state reachable by any interleaving of `grow()`/`addPoint` steps
from a state satisfying the ownership invariant, no pixel appears in
both regions' accepted sets — admission checks the ownership table
(`verifyPoint`) before accepting. -/
theorem C1_exclusivity (img : Image) (s s2 : SysState) (h0 : OwnInv s)
    (hs : Relation.ReflTransGen (SysStep img) s s2)
    (r1 r2 : Region) (h1 : r1 ∈ s2.regions) (h2 : r2 ∈ s2.regions)
    (hid : r1.id ≠ r2.id) (p : Point) (hp : p ∈ r1.border) :
    p ∉ r2.border := by
  intro hp2
  have hI := ownInv_reach img s s2 h0 hs
  have e1 := hI r1 h1 p hp
  have e2 := hI r2 h2 p hp2
  rw [e1] at e2
  exact hid (Option.some.inj e2)

/-- Concrete two-region system state over the concrete table. -/
def sAB : SysState := ⟨tAB, [rA, rB]⟩

/-- Witness for C1 at the concrete two-region state. -/
theorem C1_exclusivity_witness :
    OwnInv sAB ∧ rA ∈ sAB.regions ∧ rB ∈ sAB.regions ∧ rA.id ≠ rB.id ∧
    ((0, 1) : Point) ∈ rA.border ∧ ((0, 1) : Point) ∉ rB.border := by
  have hA : rA.border = [(0, 1)] := by
    simp [rA, mkRegionDefault, mkRegion, Region.averageColorSeuil]
  have hB : rB.border = [(2, 3)] := by
    simp [rB, mkRegionDefault, mkRegion, Region.averageColorSeuil]
  have hAid : rA.id = 1 := by
    simp [rA, mkRegionDefault, mkRegion, Region.averageColorSeuil]
  have hBid : rB.id = 2 := by
    simp [rB, mkRegionDefault, mkRegion, Region.averageColorSeuil]
  have h0 : OwnInv sAB := by
    intro r hr p hp
    simp only [sAB, List.mem_cons, List.not_mem_nil, or_false] at hr
    rcases hr with hr | hr
    · subst hr
      rw [hA] at hp
      simp only [List.mem_singleton] at hp
      subst hp
      rw [hAid]
      simp [sAB, tAB]
    · subst hr
      rw [hB] at hp
      simp only [List.mem_singleton] at hp
      subst hp
      rw [hBid]
      simp [sAB, tAB]
  have hid : rA.id ≠ rB.id := by
    rw [hAid, hBid]
    decide
  have hmA : ((0, 1) : Point) ∈ rA.border := by
    rw [hA]
    simp
  have hmemA : rA ∈ sAB.regions := by
    simp [sAB]
  have hmemB : rB ∈ sAB.regions := by
    simp [sAB]
  exact ⟨h0, hmemA, hmemB, hid, hmA,
    C1_exclusivity imgU sAB sAB h0 Relation.ReflTransGen.refl
      rA rB hmemA hmemB hid (0, 1) hmA⟩
